import Mathlib

/-!
Verification development for the Project_Vision ingestion and retrieval core.

The definitions are shallow embeddings of the Python source:
* `backend/app/chunking.py` — sentence packing with token budget and overlap;
* `backend/app/search.py` — hybrid search with Reciprocal Rank Fusion;
* `backend/app/embeddings.py` — batched embedding generation with count check;
* `backend/worker.py` — job claim / process / failure state machine;
* `backend/app/api/query.py` — temporal-intent parsing and filter assembly.

External collaborators (the nltk sentence splitter, the tiktoken tokenizer,
the transcription / extraction / embedding providers, the SQL store) are
modelled as inputs: a sentence arrives already carrying the token count the
tokenizer would assign to it, and providers are oracle functions supplied by
an environment record. Timestamps are modelled as integers (the code only
carries them through; it never computes with them).
-/

namespace Vision

/-! ## Chunker (backend/app/chunking.py)

Both entry points (`chunk_transcript`, `chunk_document`) share one packing
loop over "sentence objects"; they differ only in provenance payload.  We
embed the loop once, generically in the sentence type, with a projection
`tok` giving each sentence's token count. -/

/-- A transcript sentence object as built by `chunk_transcript` step 1:
reconstructed text, aligned start/end times, token count. -/
structure TSent where
  text : String
  start_time : Int
  end_time : Int
  token_count : Nat
  deriving DecidableEq, Repr

/-- A document sentence object as built by `chunk_document`: sentence text,
the page it came from, token count. -/
structure DSent where
  text : String
  page_number : Nat
  token_count : Nat
  deriving DecidableEq, Repr

/-- Sum of token counts of a sentence buffer. -/
def sumTok (tok : α → Nat) (l : List α) : Nat := (l.map tok).sum

/-- The backward scan of `for s in reversed(current_chunk_sents): ...` applied
to the already-reversed buffer: greedily take sentences while the running
count stays within `olap`, stop at the first that does not fit. -/
def overlapTake (tok : α → Nat) (olap : Nat) : Nat → List α → List α
  | _, [] => []
  | cnt, s :: rest =>
    if cnt + tok s ≤ olap then s :: overlapTake tok olap (cnt + tok s) rest
    else []

/-- The overlap seed computed after finalizing a chunk: scan the buffer from
its end backward, accumulating sentences while the total stays `≤ olap`;
the seed keeps the original sentence order. -/
def overlapSeed (tok : α → Nat) (olap : Nat) (buf : List α) : List α :=
  (overlapTake tok olap 0 buf.reverse).reverse

/-- The shared packing loop (`while i < len(sentence_objects)` plus the final
flush).  `buf` is `current_chunk_sents`, `cur` is `current_tokens`.  When
adding the next sentence would exceed `maxT` and the buffer is nonempty, the
buffer is finalized as a chunk and replaced by its overlap seed; the current
sentence is then appended unconditionally. -/
def packAux (tok : α → Nat) (maxT olap : Nat) : List α → List α → Nat → List (List α)
  | [], buf, _ => if buf.isEmpty then [] else [buf]
  | s :: rest, buf, cur =>
    if cur + tok s > maxT ∧ buf.isEmpty = false then
      let seed := overlapSeed tok olap buf
      buf :: packAux tok maxT olap rest (seed ++ [s]) (sumTok tok seed + tok s)
    else
      packAux tok maxT olap rest (buf ++ [s]) (cur + tok s)

/-- The chunks of `chunk_transcript`, as groups of sentence objects (before
rendering to text/provenance records). -/
def transcriptGroups (sents : List TSent) (maxT olap : Nat) : List (List TSent) :=
  packAux (·.token_count) maxT olap sents [] 0

/-- Chunk record produced by `chunk_transcript`. -/
structure ChunkMetaT where
  text : String
  start_time : Option Int
  end_time : Option Int
  chunk_index : Nat
  deriving DecidableEq, Repr

/-- Join sentence texts with a single space (`" ".join(...)`). -/
def joinSpace (l : List String) : String := String.intercalate " " l

/-- `chunk_transcript` given the sentence objects of step 1 (the nltk
splitter, word alignment and tokenizer are external and provide them). -/
def chunk_transcript (sents : List TSent) (maxT olap : Nat) : List ChunkMetaT :=
  (transcriptGroups sents maxT olap).enum.map fun p =>
    { text := joinSpace (p.2.map (·.text))
      start_time := p.2.head?.map (·.start_time)
      end_time := p.2.getLast?.map (·.end_time)
      chunk_index := p.1 }

/-- A raw page: page number plus the sentence texts (with their token
counts) that the nltk splitter produces for the page. -/
structure Page where
  page_number : Nat
  sents : List (String × Nat)
  deriving DecidableEq, Repr

/-- `chunk_document` step 1: flatten pages into sentence objects carrying
their page number. -/
def pageSentObjects (pages : List Page) : List DSent :=
  (pages.map fun p => p.sents.map fun s => DSent.mk s.1 p.page_number s.2).flatten

/-- The chunks of `chunk_document`, as groups of sentence objects. -/
def documentGroups (pages : List Page) (maxT olap : Nat) : List (List DSent) :=
  packAux (·.token_count) maxT olap (pageSentObjects pages) [] 0

/-- Chunk record produced by `chunk_document` (page_number is the start
page; metadata records the start/end page range). -/
structure ChunkMetaD where
  text : String
  page_number : Option Nat
  chunk_index : Nat
  start_page : Option Nat
  end_page : Option Nat
  deriving DecidableEq, Repr

/-- `chunk_document` given the per-page sentence objects. -/
def chunk_document (pages : List Page) (maxT olap : Nat) : List ChunkMetaD :=
  (documentGroups pages maxT olap).enum.map fun p =>
    { text := joinSpace (p.2.map (·.text))
      page_number := p.2.head?.map (·.page_number)
      chunk_index := p.1
      start_page := p.2.head?.map (·.page_number)
      end_page := p.2.getLast?.map (·.page_number) }

/-- The shape every buffer (hence every emitted chunk) can have: either it
fits the token budget, or it is an overlap seed (total `≤ olap`) followed by
one sentence that was appended unconditionally. -/
def BufOK (tok : α → Nat) (maxT olap : Nat) (buf : List α) : Prop :=
  sumTok tok buf ≤ maxT ∨ ∃ pre s, buf = pre ++ [s] ∧ sumTok tok pre ≤ olap

/-! ## Hybrid retrieval (backend/app/search.py)

`hybrid_search` runs the two retrieval legs (each a SQL ranking, modelled as
the ordered list of chunk ids the leg returns), accumulates Reciprocal Rank
Fusion scores in a Python dict (modelled as an insertion-ordered association
list), sorts descending by fused score (Python's stable sort, modelled by
stable insertion sort) and truncates to `limit`.  Chunk ids are modelled as
naturals; scores, `1.0 / (k + rank + 1)`, as rationals. -/

/-- The RRF contribution of rank `r` (zero-based) with constant `k`. -/
def rrf (k r : Nat) : ℚ := 1 / ((k : ℚ) + (r : ℚ) + 1)

/-- `scores[cid] = scores.get(cid, 0.0) + v` on an insertion-ordered dict:
an existing key keeps its position and accumulates; a new key is appended. -/
def updateScore (l : List (Nat × ℚ)) (cid : Nat) (v : ℚ) : List (Nat × ℚ) :=
  match l with
  | [] => [(cid, v)]
  | p :: rest => if p.1 = cid then (p.1, p.2 + v) :: rest else p :: updateScore rest cid v

/-- `for rank, item in enumerate(leg): scores[cid] += 1/(k+rank+1)`,
starting at rank `r`. -/
def addLegAux (k : Nat) : List (Nat × ℚ) → List Nat → Nat → List (Nat × ℚ)
  | scores, [], _ => scores
  | scores, cid :: rest, r => addLegAux k (updateScore scores cid (rrf k r)) rest (r + 1)

/-- The fused score dict after processing the semantic leg then the keyword
leg, with `k = 60`. -/
def rrfScores (sem key : List Nat) : List (Nat × ℚ) :=
  addLegAux 60 (addLegAux 60 [] sem 0) key 0

/-- Descending order on fused scores (`sort(..., reverse=True)`). -/
def scoreDesc (a b : Nat × ℚ) : Prop := b.2 ≤ a.2

instance : DecidableRel (α := Nat × ℚ) scoreDesc := fun a b =>
  inferInstanceAs (Decidable (b.2 ≤ a.2))

instance : IsTotal (Nat × ℚ) scoreDesc := ⟨fun a b => le_total b.2 a.2⟩

instance : IsTrans (Nat × ℚ) scoreDesc := ⟨fun _ _ _ h h' => le_trans h' h⟩

/-- `hybrid_search`, reduced to its fused ranking: the returned
`(chunk_id, fusion_score)` pairs, sorted descending and truncated to
`limit`.  `sem` and `key` are the chunk-id rankings the two legs return. -/
def hybrid_search (sem key : List Nat) (limit : Nat) : List (Nat × ℚ) :=
  (List.insertionSort scoreDesc (rrfScores sem key)).take limit

/-- First-match lookup in the score dict. -/
def getScore (l : List (Nat × ℚ)) (c : Nat) : Option ℚ :=
  match l with
  | [] => none
  | p :: rest => if p.1 = c then some p.2 else getScore rest c

/-! ## Embedding batch validator (backend/app/embeddings.py)

`VertexAIEmbeddingService.generate_embeddings` slices the text list into
consecutive batches of `batch_limit`, calls the provider once per batch,
checks the returned vector count against the batch size (mismatch raises),
and concatenates.  The provider (`self.model.get_embeddings`, after the
retry decorator has run its course) is an oracle; vectors are lists of
rationals.  The model is faithful for `limit ≥ 1` (Python's `range` with
step 0 cannot occur for the configured limits). -/

/-- The batch loop `for i in range(0, len(texts), limit)`. -/
def generateEmbeddingsAux (provider : List String → Except String (List (List ℚ)))
    (limit : Nat) : List String → Except String (List (List ℚ))
  | [] => .ok []
  | t :: ts =>
    match provider (t :: ts.take (limit - 1)) with
    | .error e => .error e
    | .ok embs =>
      if embs.length ≠ (t :: ts.take (limit - 1)).length then
        .error "Embedding count mismatch"
      else
        match generateEmbeddingsAux provider limit (ts.drop (limit - 1)) with
        | .error e => .error e
        | .ok rest => .ok (embs ++ rest)
termination_by l => l.length
decreasing_by simp [List.length_drop]; omega

/-- `generate_embeddings`: empty input short-circuits to `[]`, otherwise the
batch loop runs. -/
def generate_embeddings (provider : List String → Except String (List (List ℚ)))
    (limit : Nat) (texts : List String) : Except String (List (List ℚ)) :=
  if texts.isEmpty then .ok [] else generateEmbeddingsAux provider limit texts

/-- The consecutive batches the loop visits (specification-side view of the
slicing, used to state the partition property). -/
def batches (limit : Nat) : List String → List (List String)
  | [] => []
  | t :: ts => (t :: ts.take (limit - 1)) :: batches limit (ts.drop (limit - 1))
termination_by l => l.length
decreasing_by simp [List.length_drop]; omega

/-! ## Worker state machine (backend/worker.py)

`process_job` over an explicit database state.  UUIDs are naturals;
timestamps (`updated_at`, `created_at`) are wall-clock effects outside the
model.  The committed claim is the only commit before the final one, so an
exception during processing discards all later writes (rollback) and the
failure-status update is applied to the claimed state.  External
collaborators (transcription + sentence alignment, download + extraction +
sentence splitting, the embedding provider) are oracles in `WorkerEnv`;
`statusWriteFails` models the best-effort failure-status write itself
failing (its exception is caught and logged, `commit_error`). -/

/-- Job lifecycle status (`models.IngestionStatus`). -/
inductive IngestionStatus where
  | pending
  | processing
  | completed
  | failed
  deriving DecidableEq, Repr

/-- Document source kind (`models.DocumentSourceType`). -/
inductive DocumentSourceType where
  | audio
  | pdf
  | markdown
  | text
  | web
  | image
  deriving DecidableEq, Repr

/-- Job row (`models.Job`): status and error message are the fields the
worker mutates. -/
structure JobRow where
  job_id : Nat
  user_id : Nat
  document_id : Nat
  status : IngestionStatus
  error_message : Option String
  deriving DecidableEq, Repr

/-- Document row (`models.Document`), the fields the worker reads. -/
structure DocRow where
  document_id : Nat
  source_type : DocumentSourceType
  source_uri : String
  deriving DecidableEq, Repr

/-- Chunk row (`models.Chunk`), the fields the worker writes.  `source_ref`
is the provenance payload (`metadata` of a document chunk, `{}`/none for a
transcript chunk). -/
structure ChunkRow where
  chunk_id : Nat
  user_id : Nat
  document_id : Nat
  chunk_index : Nat
  text : String
  embedding : List ℚ
  start_offset : Option Int
  end_offset : Option Int
  page_number : Option Nat
  source_ref : Option (Nat × Nat)
  deriving DecidableEq, Repr

/-- The persistent store the worker touches. -/
structure DB where
  jobs : List JobRow
  documents : List DocRow
  chunks : List ChunkRow
  deriving DecidableEq, Repr

/-- Worker-level chunk payload: the fields `process_job` reads off a chunk
dict produced by either chunking entry point (`.get` on a missing key gives
`None`). -/
structure WChunkMeta where
  text : String
  start_time : Option Int
  end_time : Option Int
  page_number : Option Nat
  chunk_index : Nat
  metadata : Option (Nat × Nat)
  deriving DecidableEq, Repr

/-- A transcript chunk dict seen by the worker (`page_number` and
`metadata` keys absent). -/
def ofTranscriptChunk (c : ChunkMetaT) : WChunkMeta :=
  ⟨c.text, c.start_time, c.end_time, none, c.chunk_index, none⟩

/-- A document chunk dict seen by the worker (`start_time`/`end_time` set
to `None` by `chunk_document`; `metadata` carries the page range). -/
def ofDocumentChunk (c : ChunkMetaD) : WChunkMeta :=
  ⟨c.text, none, none, c.page_number, c.chunk_index,
    match c.start_page, c.end_page with
    | some a, some b => some (a, b)
    | _, _ => none⟩

/-- Oracles for the external collaborators consumed by one worker run. -/
structure WorkerEnv where
  transcription : Except String (List TSent)
  pages : Except String (List Page)
  provider : List String → Except String (List (List ℚ))
  batchLimit : Nat
  statusWriteFails : Bool

/-- `select(Job).where(Job.job_id == jid)`, first row. -/
def findJob (db : DB) (jid : Nat) : Option JobRow :=
  db.jobs.find? fun j => decide (j.job_id = jid)

/-- `select(Document).where(Document.document_id == did)`, first row. -/
def findDoc (db : DB) (did : Nat) : Option DocRow :=
  db.documents.find? fun d => decide (d.document_id = did)

/-- The claim write `UPDATE jobs SET status = processing WHERE job_id = jid
AND status = pending`, applied to the job table. -/
def claimJobs (db : DB) (jid : Nat) : DB :=
  { db with jobs := db.jobs.map fun j =>
      if j.job_id = jid ∧ j.status = IngestionStatus.pending then
        { j with status := IngestionStatus.processing } else j }

/-- The claim write's `rowcount`. -/
def claimRowcount (db : DB) (jid : Nat) : Nat :=
  (db.jobs.filter fun j =>
    decide (j.job_id = jid ∧ j.status = IngestionStatus.pending)).length

/-- The failure-status write `UPDATE jobs SET status = failed,
error_message = msg WHERE job_id = jid` (no status precondition). -/
def markFailed (db : DB) (jid : Nat) (msg : String) : DB :=
  { db with jobs := db.jobs.map fun j =>
      if j.job_id = jid then
        { j with status := IngestionStatus.failed, error_message := some msg } else j }

/-- The `except` branch after a failure: rollback to the committed state,
then a best-effort failure-status write (skipped in effect when that write
itself fails), then re-raise the original message. -/
def handleFailure (env : WorkerEnv) (committed : DB) (jid : Nat) (msg : String) :
    DB × Option String :=
  (if env.statusWriteFails then committed else markFailed committed jid msg, some msg)

/-- Step 3 of `process_job`: dispatch on source kind to produce the chunk
dict list.  Audio → transcription + `chunk_transcript`; pdf/markdown/text
with a `gs://` URI → download + extraction + `chunk_document`; a
non-`gs://` URI or any other source kind yields zero chunks. -/
def dispatchChunks (env : WorkerEnv) (doc : DocRow) : Except String (List WChunkMeta) :=
  match doc.source_type with
  | DocumentSourceType.audio =>
      match env.transcription with
      | .error e => .error e
      | .ok sents => .ok ((chunk_transcript sents 800 100).map ofTranscriptChunk)
  | DocumentSourceType.text | DocumentSourceType.markdown | DocumentSourceType.pdf =>
      if doc.source_uri.startsWith "gs://" then
        match env.pages with
        | .error e => .error e
        | .ok pages => .ok ((chunk_document pages 800 100).map ofDocumentChunk)
      else .ok []
  | _ => .ok []

/-- Key predicate for the idempotency lookup. -/
def keyMatch (docId idx : Nat) (ch : ChunkRow) : Bool :=
  decide (ch.document_id = docId ∧ ch.chunk_index = idx)

/-- `select(Chunk).where(document_id == d, chunk_index == i)`, first row. -/
def findChunk (chunks : List ChunkRow) (docId idx : Nat) : Option ChunkRow :=
  chunks.find? (keyMatch docId idx)

/-- Overwrite the first row matching the key in place (the ORM mutates the
loaded row). -/
def overwriteFirst (docId idx : Nat) (f : ChunkRow → ChunkRow) :
    List ChunkRow → List ChunkRow
  | [] => []
  | ch :: rest =>
    if keyMatch docId idx ch then f ch :: rest
    else ch :: overwriteFirst docId idx f rest

/-- The overwrite the worker performs on an existing row: text, embedding,
offsets and page number are replaced; `source_ref` is left untouched (the
code's `existing` update does not assign it). -/
def overwriteFields (m : WChunkMeta) (emb : List ℚ) (ch : ChunkRow) : ChunkRow :=
  { ch with
    text := m.text
    embedding := emb
    start_offset := m.start_time
    end_offset := m.end_time
    page_number := m.page_number }

/-- One iteration of the storage loop: upsert by `(document_id,
chunk_index)`. -/
def upsertChunk (chunks : List ChunkRow) (freshId userId docId : Nat)
    (m : WChunkMeta) (emb : List ℚ) : List ChunkRow :=
  match findChunk chunks docId m.chunk_index with
  | some _ => overwriteFirst docId m.chunk_index (overwriteFields m emb) chunks
  | none =>
      chunks ++ [⟨freshId, userId, docId, m.chunk_index, m.text, emb,
        m.start_time, m.end_time, m.page_number, m.metadata⟩]

/-- The storage loop over all `(chunk dict, embedding)` pairs; `fresh i`
supplies the i-th freshly generated chunk identity. -/
def storeChunks (fresh : Nat → Nat) (userId docId : Nat) :
    List ChunkRow → Nat → List (WChunkMeta × List ℚ) → List ChunkRow
  | chunks, _, [] => chunks
  | chunks, i, (m, e) :: rest =>
      storeChunks fresh userId docId
        (upsertChunk chunks (fresh i) userId docId m e) (i + 1) rest

/-- Steps 2–6 of `process_job` (everything after the committed claim):
load the document, dispatch, check non-emptiness, embed, check counts,
store, mark completed.  An error result is the exception the `except`
branch will see. -/
def runPipeline (env : WorkerEnv) (fresh : Nat → Nat) (db : DB) (job : JobRow) :
    Except String DB :=
  match findDoc db job.document_id with
  | none => .error "Document not found"
  | some doc =>
    match dispatchChunks env doc with
    | .error e => .error e
    | .ok chunks_data =>
      if chunks_data.isEmpty then
        .error "No chunks produced from document"
      else
        match generate_embeddings env.provider env.batchLimit
            (chunks_data.map (·.text)) with
        | .error e => .error e
        | .ok embeddings =>
          if embeddings.length ≠ chunks_data.length then
            .error "Embedding count mismatch between chunks and embeddings"
          else
            .ok { db with
              chunks := storeChunks fresh job.user_id job.document_id db.chunks 0
                (chunks_data.zip embeddings)
              jobs := db.jobs.map fun j =>
                if j.job_id = job.job_id then
                  { j with status := IngestionStatus.completed } else j }

/-- `process_job`: claim, then process, with failure handling.  Returns the
final database state and the propagated exception message (`none` on
success or graceful no-op). -/
def process_job (env : WorkerEnv) (fresh : Nat → Nat) (db : DB) (jid : Nat) :
    DB × Option String :=
  if claimRowcount db jid = 0 then
    match findJob db jid with
    | none => handleFailure env db jid "Job not found"
    | some _ => (db, none)
  else
    match findJob (claimJobs db jid) jid with
    | none => handleFailure env (claimJobs db jid) jid "Job not found after claim"
    | some job =>
      match runPipeline env fresh (claimJobs db jid) job with
      | .ok db' => (db', none)
      | .error msg => handleFailure env (claimJobs db jid) jid msg

/-! ## Query intent helper (backend/app/api/query.py)

`parse_temporal_intent` does case-insensitive substring matching of fixed
recency phrases; the endpoint prefers an explicit `filters.date_range
["start"]` (parsed with `dateutil`; a parse failure is swallowed by a bare
`except: pass`) and runs the implicit inference only when no `"start"` key
is present.  Time is modelled in hours as integers (`timedelta(days=7)` =
168 h); the explicit value is `Option Int`, `none` standing for a value
`dateutil` fails to parse. -/

/-- ASCII lowercase of one character (the effect of Python's `.lower()`
on the ASCII queries involved). -/
def asciiLower (c : Char) : Char :=
  if 65 ≤ c.toNat ∧ c.toNat ≤ 90 then Char.ofNat (c.toNat + 32) else c

/-- `query.lower()`. -/
def toLowerStr (s : String) : String := String.mk (s.data.map asciiLower)

/-- Character-list prefix test. -/
def startsWithCh : List Char → List Char → Bool
  | [], _ => true
  | _ :: _, [] => false
  | a :: as, b :: bs => a = b && startsWithCh as bs

/-- Substring containment on character lists (`pat in s` in Python). -/
def containsSubAux (pat : List Char) : List Char → Bool
  | [] => startsWithCh pat []
  | c :: rest => startsWithCh pat (c :: rest) || containsSubAux pat rest

/-- `pat in s` for strings. -/
def containsSub (s pat : String) : Bool := containsSubAux pat.toList s.toList

/-- `parse_temporal_intent(query)`: first matching recency phrase wins;
offsets are hours before `now`. -/
def parse_temporal_intent (query : String) (now : Int) : Option Int :=
  let q := toLowerStr query
  if containsSub q "last week" || containsSub q "past week" then
    some (now - 7 * 24)
  else if containsSub q "yesterday" then
    some (now - 24)
  else if containsSub q "last month" || containsSub q "past month" then
    some (now - 30 * 24)
  else if containsSub q "last 24 hours" then
    some (now - 24)
  else none

/-- The endpoint's `start_date` assembly: when `filters.date_range` exists
and has a `"start"` key its parsed value is used (an unparseable value
leaves `start_date = None` via the bare `except`), and the implicit
inference is skipped entirely; otherwise `parse_temporal_intent` runs.
`dateRange = none` also covers a missing/falsy `filters` object; an empty
dict is falsy in Python and has no `"start"` key, so both routes agree on
it. -/
def computeStartDate (dateRange : Option (List (String × Option Int)))
    (query : String) (now : Int) : Option Int :=
  match dateRange with
  | some dr =>
    match dr.lookup "start" with
    | some v => v
    | none => parse_temporal_intent query now
  | none => parse_temporal_intent query now

/-! ### Packing lemmas -/

theorem sumTok_append (tok : α → Nat) (l₁ l₂ : List α) :
    sumTok tok (l₁ ++ l₂) = sumTok tok l₁ + sumTok tok l₂ := by
  simp [sumTok]

theorem overlapTake_le (tok : α → Nat) (olap : Nat) :
    ∀ (l : List α) (cnt : Nat), cnt ≤ olap →
      cnt + sumTok tok (overlapTake tok olap cnt l) ≤ olap := by
  intro l
  induction l with
  | nil => intro cnt h; simpa [overlapTake, sumTok] using h
  | cons s rest ih =>
    intro cnt h
    by_cases hfit : cnt + tok s ≤ olap
    · have hr := ih (cnt + tok s) hfit
      simp only [overlapTake, if_pos hfit, sumTok, List.map_cons, List.sum_cons] at hr ⊢
      omega
    · simp only [overlapTake, if_neg hfit, sumTok, List.map_nil, List.sum_nil]
      omega

theorem overlapSeed_le (tok : α → Nat) (olap : Nat) (buf : List α) :
    sumTok tok (overlapSeed tok olap buf) ≤ olap := by
  have h := overlapTake_le tok olap buf.reverse 0 (Nat.zero_le _)
  simpa [overlapSeed, sumTok, List.map_reverse, List.sum_reverse] using h

theorem packAux_bufOK (tok : α → Nat) (maxT olap : Nat) :
    ∀ (sents buf : List α) (cur : Nat), cur = sumTok tok buf →
      BufOK tok maxT olap buf →
      ∀ grp ∈ packAux tok maxT olap sents buf cur, BufOK tok maxT olap grp := by
  intro sents
  induction sents with
  | nil =>
    intro buf cur _ hok grp hmem
    simp only [packAux] at hmem
    split at hmem
    · simp at hmem
    · simp only [List.mem_singleton] at hmem
      exact hmem ▸ hok
  | cons s rest ih =>
    intro buf cur hcur hok grp hmem
    simp only [packAux] at hmem
    split at hmem
    · rcases List.mem_cons.mp hmem with h | h
      · exact h ▸ hok
      · refine ih _ _ ?_ ?_ grp h
        · rw [sumTok_append]; simp [sumTok]
        · exact Or.inr ⟨overlapSeed tok olap buf, s, rfl, overlapSeed_le tok olap buf⟩
    · rename_i hcond
      push_neg at hcond
      by_cases hsmall : cur + tok s > maxT
      · have hempty : buf = [] := by
          cases hb : buf.isEmpty with
          | true => exact List.isEmpty_iff.mp hb
          | false => exact absurd hb (hcond hsmall)
        subst hempty
        refine ih _ _ ?_ ?_ grp hmem
        · simp only [sumTok, List.map_nil, List.sum_nil] at hcur
          simp [sumTok, hcur]
        · exact Or.inr ⟨[], s, by simp, by simp [sumTok]⟩
      · refine ih _ _ ?_ ?_ grp hmem
        · rw [sumTok_append]
          simp only [sumTok, List.map_cons, List.map_nil, List.sum_cons, List.sum_nil] at hcur ⊢
          omega
        · left
          rw [sumTok_append]
          simp only [sumTok, List.map_cons, List.map_nil, List.sum_cons, List.sum_nil] at hcur ⊢
          omega

/-- Every group the packer emits either fits `maxT`, or decomposes as an
overlap seed (total `≤ olap`) followed by one unconditionally appended
sentence; consequently, when all its sentences fit `maxT` individually, the
group's total is at most `maxT + olap`. -/
theorem groups_token_bound (tok : α → Nat) (maxT olap : Nat) (sents : List α)
    (grp : List α) (h : grp ∈ packAux tok maxT olap sents [] 0) :
    (sumTok tok grp ≤ maxT ∨ ∃ pre s, grp = pre ++ [s] ∧ sumTok tok pre ≤ olap)
    ∧ ((∀ s ∈ grp, tok s ≤ maxT) → sumTok tok grp ≤ maxT + olap) := by
  have hok : BufOK tok maxT olap grp := by
    refine packAux_bufOK tok maxT olap sents [] 0 ?_ ?_ grp h
    · simp [sumTok]
    · left; simp [sumTok]
  refine ⟨hok, fun hsmall => ?_⟩
  rcases hok with hle | ⟨pre, s, heq, hpre⟩
  · omega
  · have hs : tok s ≤ maxT := hsmall s (heq ▸ List.mem_append_right pre (List.mem_singleton_self s))
    subst heq
    rw [sumTok_append]
    simp only [sumTok, List.map_cons, List.map_nil, List.sum_cons, List.sum_nil] at hpre hs ⊢
    omega

/-- C1 (counterexample): the claim "every chunk's token count is at most
`max_tokens`, except a chunk composed of exactly one sentence whose own
token count exceeds `max_tokens`" is false.  With `max_tokens = 800`,
`overlap_tokens = 100` and sentence token counts `[60, 750]`, the finalize
step emits chunk `[60]`, keeps the 60-token sentence as overlap seed, and
appends the 750-token sentence unconditionally; the final flush then emits
a chunk of two sentences (each individually ≤ 800) totalling 810 > 800. -/
theorem chunk_token_bound_claim_false :
    documentGroups [⟨1, [("a", 60), ("b", 750)]⟩] 800 100 =
      [[⟨"a", 1, 60⟩], [⟨"a", 1, 60⟩, ⟨"b", 1, 750⟩]]
    ∧ sumTok (·.token_count) [(⟨"a", 1, 60⟩ : DSent), ⟨"b", 1, 750⟩] = 810
    ∧ ¬ sumTok (·.token_count) [(⟨"a", 1, 60⟩ : DSent), ⟨"b", 1, 750⟩] ≤ 800
    ∧ [(⟨"a", 1, 60⟩ : DSent), ⟨"b", 1, 750⟩].length = 2
    ∧ (⟨"a", 1, 60⟩ : DSent).token_count ≤ 800
    ∧ (⟨"b", 1, 750⟩ : DSent).token_count ≤ 800 := by
  refine ⟨?_, by decide, by decide, by decide, by decide, by decide⟩
  decide

/-- C1 (amended): every chunk produced by the packer (either entry point)
either has token count ≤ `max_tokens`, or consists of a (possibly empty)
overlap-seed prefix of total token count ≤ `overlap_tokens` followed by a
single final sentence; in particular, a chunk all of whose sentences have
token count ≤ `max_tokens` has total token count ≤ `max_tokens +
overlap_tokens`. -/
theorem chunk_token_bound_amended (maxT olap : Nat) :
    (∀ (sents : List TSent), ∀ grp ∈ transcriptGroups sents maxT olap,
      (sumTok (·.token_count) grp ≤ maxT ∨
        ∃ pre s, grp = pre ++ [s] ∧ sumTok (·.token_count) pre ≤ olap)
      ∧ ((∀ s ∈ grp, s.token_count ≤ maxT) → sumTok (·.token_count) grp ≤ maxT + olap))
    ∧ (∀ (pages : List Page), ∀ grp ∈ documentGroups pages maxT olap,
      (sumTok (·.token_count) grp ≤ maxT ∨
        ∃ pre s, grp = pre ++ [s] ∧ sumTok (·.token_count) pre ≤ olap)
      ∧ ((∀ s ∈ grp, s.token_count ≤ maxT) → sumTok (·.token_count) grp ≤ maxT + olap)) := by
  constructor
  · intro sents grp h
    exact groups_token_bound _ maxT olap sents grp h
  · intro pages grp h
    exact groups_token_bound _ maxT olap (pageSentObjects pages) grp h

/-- C2: packing sentences with token counts `[50, 60, 700, 90]` at
`max_tokens = 800`, `overlap_tokens = 100` yields exactly three chunks:
`[50, 60]`, then `[60, 700]` (the 60-token sentence carried as overlap
seed), then `[90]` (empty overlap seed since 700 > 100), with chunk_index
0, 1, 2. -/
theorem chunk_packing_example :
    documentGroups [⟨1, [("s0", 50), ("s1", 60), ("s2", 700), ("s3", 90)]⟩] 800 100 =
      [[⟨"s0", 1, 50⟩, ⟨"s1", 1, 60⟩], [⟨"s1", 1, 60⟩, ⟨"s2", 1, 700⟩], [⟨"s3", 1, 90⟩]]
    ∧ chunk_document [⟨1, [("s0", 50), ("s1", 60), ("s2", 700), ("s3", 90)]⟩] 800 100 =
      [⟨"s0 s1", some 1, 0, some 1, some 1⟩,
       ⟨"s1 s2", some 1, 1, some 1, some 1⟩,
       ⟨"s3", some 1, 2, some 1, some 1⟩] := by
  constructor
  · decide
  · rfl

/-- Witness for `chunk_token_bound_amended` at a concrete input. -/
theorem chunk_token_bound_amended_witness :
    sumTok (·.token_count) [(⟨"a", 1, 60⟩ : DSent), ⟨"b", 1, 750⟩] ≤ 800 + 100 :=
  ((chunk_token_bound_amended 800 100).2 [⟨1, [("a", 60), ("b", 750)]⟩]
    [⟨"a", 1, 60⟩, ⟨"b", 1, 750⟩] (by decide)).2 (by decide)

/-! ### RRF lemmas -/

theorem getScore_updateScore_self (l : List (Nat × ℚ)) (c : Nat) (v : ℚ) :
    getScore (updateScore l c v) c = some ((getScore l c).getD 0 + v) := by
  induction l with
  | nil => simp [updateScore, getScore]
  | cons p rest ih =>
    by_cases hp : p.1 = c
    · simp [updateScore, getScore, hp]
    · simp [updateScore, getScore, hp, ih]

theorem getScore_updateScore_ne (l : List (Nat × ℚ)) (c c' : Nat) (v : ℚ)
    (h : c' ≠ c) : getScore (updateScore l c v) c' = getScore l c' := by
  induction l with
  | nil => simp [updateScore, getScore, Ne.symm h]
  | cons p rest ih =>
    by_cases hp : p.1 = c
    · simp [updateScore, getScore, hp, Ne.symm h]
    · by_cases hp' : p.1 = c'
      · simp [updateScore, getScore, hp, hp', h]
      · simp [updateScore, getScore, hp, hp', ih]

theorem keys_updateScore (l : List (Nat × ℚ)) (c : Nat) (v : ℚ) :
    (updateScore l c v).map (·.1) =
      if c ∈ l.map (·.1) then l.map (·.1) else l.map (·.1) ++ [c] := by
  induction l with
  | nil => simp [updateScore]
  | cons p rest ih =>
    by_cases hp : p.1 = c
    · simp [updateScore, hp]
    · have : c ∈ p.1 :: rest.map (·.1) ↔ c ∈ rest.map (·.1) := by
        constructor
        · intro h; rcases List.mem_cons.mp h with h | h
          · exact absurd h.symm hp
          · exact h
        · exact fun h => List.mem_cons_of_mem _ h
      by_cases hc : c ∈ rest.map (·.1)
      · simp only [updateScore, if_neg hp, List.map_cons, this, if_pos hc, ih, if_pos hc]
      · simp only [updateScore, if_neg hp, List.map_cons, this, if_neg hc, ih, if_neg hc,
          List.cons_append]

theorem nodupKeys_updateScore (l : List (Nat × ℚ)) (c : Nat) (v : ℚ)
    (h : (l.map (·.1)).Nodup) : ((updateScore l c v).map (·.1)).Nodup := by
  rw [keys_updateScore]
  by_cases hc : c ∈ l.map (·.1)
  · simpa [hc] using h
  · simp [hc, List.nodup_append, h]

theorem nodupKeys_addLegAux (k : Nat) (leg : List Nat) :
    ∀ (scores : List (Nat × ℚ)) (r : Nat), (scores.map (·.1)).Nodup →
      ((addLegAux k scores leg r).map (·.1)).Nodup := by
  induction leg with
  | nil => intro scores r h; simpa [addLegAux] using h
  | cons a rest ih =>
    intro scores r h
    exact ih _ _ (nodupKeys_updateScore scores a (rrf k r) h)

theorem getScore_of_mem (l : List (Nat × ℚ)) (p : Nat × ℚ)
    (hnd : (l.map (·.1)).Nodup) (hmem : p ∈ l) : getScore l p.1 = some p.2 := by
  induction l with
  | nil => simp at hmem
  | cons q rest ih =>
    rcases List.mem_cons.mp hmem with h | h
    · subst h; simp [getScore]
    · have hq : q.1 ∉ rest.map (·.1) := (List.nodup_cons.mp hnd).1
      have hne : q.1 ≠ p.1 := fun he =>
        hq (he ▸ List.mem_map_of_mem (·.1) h)
      simp only [getScore, if_neg hne]
      exact ih (List.nodup_cons.mp hnd).2 h

theorem getScore_addLegAux (k : Nat) (leg : List Nat) (hnd : leg.Nodup) :
    ∀ (scores : List (Nat × ℚ)) (r0 c : Nat),
      getScore (addLegAux k scores leg r0) c =
        if c ∈ leg then some ((getScore scores c).getD 0 + rrf k (r0 + leg.indexOf c))
        else getScore scores c := by
  induction leg with
  | nil => intro scores r0 c; simp [addLegAux]
  | cons a rest ih =>
    intro scores r0 c
    have hrest : rest.Nodup := (List.nodup_cons.mp hnd).2
    have hanotin : a ∉ rest := (List.nodup_cons.mp hnd).1
    by_cases hca : c = a
    · subst hca
      have hnotr : c ∉ rest := hanotin
      rw [addLegAux, ih hrest]
      simp only [if_neg hnotr, if_pos (List.mem_cons_self c rest)]
      rw [getScore_updateScore_self, List.indexOf_cons_self]
      simp
    · by_cases hcr : c ∈ rest
      · rw [addLegAux, ih hrest]
        simp only [if_pos hcr, if_pos (List.mem_cons_of_mem a hcr)]
        rw [getScore_updateScore_ne _ _ _ _ hca]
        have hidx : (a :: rest).indexOf c = rest.indexOf c + 1 := by
          simpa using List.indexOf_cons_ne (l := rest) (fun he => hca he.symm)
        rw [hidx]
        have harg : r0 + 1 + rest.indexOf c = r0 + (rest.indexOf c + 1) := by omega
        rw [harg]
      · have hnot : c ∉ a :: rest := by
          intro h; rcases List.mem_cons.mp h with h | h
          · exact hca h
          · exact hcr h
        rw [addLegAux, ih hrest]
        simp only [if_neg hcr, if_neg hnot]
        exact getScore_updateScore_ne _ _ _ _ hca

/-- C3: under duplicate-free legs, every pair returned by `hybrid_search`
carries as score exactly the sum over the legs containing its id of
`1/(60 + rank + 1)` at its zero-based rank there; the returned list is
sorted by descending fused score and has length at most `limit`. -/
theorem hybrid_search_rrf (sem key : List Nat) (limit : Nat)
    (hs : sem.Nodup) (hk : key.Nodup) :
    (∀ p ∈ hybrid_search sem key limit,
      p.2 = (if p.1 ∈ sem then rrf 60 (sem.indexOf p.1) else 0)
          + (if p.1 ∈ key then rrf 60 (key.indexOf p.1) else 0))
    ∧ (hybrid_search sem key limit).Sorted scoreDesc
    ∧ (hybrid_search sem key limit).length ≤ limit := by
  refine ⟨?_, ?_, ?_⟩
  · intro p hp
    have hp₁ : p ∈ List.insertionSort scoreDesc (rrfScores sem key) :=
      List.mem_of_mem_take hp
    have hp₂ : p ∈ rrfScores sem key :=
      (List.perm_insertionSort scoreDesc (rrfScores sem key)).mem_iff.mp hp₁
    have hnd : ((rrfScores sem key).map (·.1)).Nodup := by
      apply nodupKeys_addLegAux
      apply nodupKeys_addLegAux
      simp
    have hget : getScore (rrfScores sem key) p.1 = some p.2 :=
      getScore_of_mem _ p hnd hp₂
    rw [rrfScores, getScore_addLegAux 60 key hk] at hget
    rw [getScore_addLegAux 60 sem hs] at hget
    simp only [getScore] at hget
    by_cases hms : p.1 ∈ sem <;> by_cases hmk : p.1 ∈ key
    · simp only [if_pos hms, if_pos hmk, Option.getD_some, Option.getD_none, Option.some_inj,
        Nat.zero_add, zero_add] at hget
      simp only [if_pos hms, if_pos hmk]
      exact hget.symm
    · simp only [if_pos hms, if_neg hmk, Option.getD_some, Option.getD_none, Option.some_inj,
        Nat.zero_add, zero_add] at hget
      simp only [if_pos hms, if_neg hmk, add_zero]
      exact hget.symm
    · simp only [if_neg hms, if_pos hmk, Option.getD_none, Option.some_inj,
        Nat.zero_add, zero_add] at hget
      simp only [if_neg hms, if_pos hmk, zero_add]
      exact hget.symm
    · simp only [if_neg hms, if_neg hmk] at hget
      exact absurd hget (by simp)
  · exact List.Pairwise.sublist (List.take_sublist _ _)
      (List.sorted_insertionSort scoreDesc (rrfScores sem key))
  · rw [hybrid_search, List.length_take]
    exact Nat.min_le_left _ _

/-! ### Temporal intent theorems -/

/-- C9: with no explicit start filter the first matching recency phrase
(case-insensitive substring, in code order: last/past week → −7 days,
yesterday → −1 day, last/past month → −30 days, last 24 hours → −24 h)
yields the implicit start bound, no match yields none, and an explicit
parseable `date_range["start"]` always wins and suppresses the inference
(the query text is not consulted at all in that case). -/
theorem temporal_intent_resolution (q : String) (now : Int)
    (dr : List (String × Option Int)) (T : Int) :
    (dr.lookup "start" = some (some T) → computeStartDate (some dr) q now = some T)
    ∧ (dr.lookup "start" = none →
        computeStartDate (some dr) q now = parse_temporal_intent q now)
    ∧ computeStartDate none q now = parse_temporal_intent q now
    ∧ ((containsSub (toLowerStr q) "last week" || containsSub (toLowerStr q) "past week") = true →
        parse_temporal_intent q now = some (now - 7 * 24))
    ∧ ((containsSub (toLowerStr q) "last week" || containsSub (toLowerStr q) "past week") = false →
        containsSub (toLowerStr q) "yesterday" = true →
        parse_temporal_intent q now = some (now - 24))
    ∧ ((containsSub (toLowerStr q) "last week" || containsSub (toLowerStr q) "past week") = false →
        containsSub (toLowerStr q) "yesterday" = false →
        (containsSub (toLowerStr q) "last month" || containsSub (toLowerStr q) "past month") = true →
        parse_temporal_intent q now = some (now - 30 * 24))
    ∧ ((containsSub (toLowerStr q) "last week" || containsSub (toLowerStr q) "past week") = false →
        containsSub (toLowerStr q) "yesterday" = false →
        (containsSub (toLowerStr q) "last month" || containsSub (toLowerStr q) "past month") = false →
        containsSub (toLowerStr q) "last 24 hours" = true →
        parse_temporal_intent q now = some (now - 24))
    ∧ ((containsSub (toLowerStr q) "last week" || containsSub (toLowerStr q) "past week") = false →
        containsSub (toLowerStr q) "yesterday" = false →
        (containsSub (toLowerStr q) "last month" || containsSub (toLowerStr q) "past month") = false →
        containsSub (toLowerStr q) "last 24 hours" = false →
        parse_temporal_intent q now = none) := by
  refine ⟨?_, ?_, rfl, ?_, ?_, ?_, ?_, ?_⟩
  · intro h; simp [computeStartDate, h]
  · intro h; simp [computeStartDate, h]
  · intro h; simp [parse_temporal_intent, h]
  · intro h1 h2; simp [parse_temporal_intent, h1, h2]
  · intro h1 h2 h3; simp [parse_temporal_intent, h1, h2, h3]
  · intro h1 h2 h3 h4; simp [parse_temporal_intent, h1, h2, h3, h4]
  · intro h1 h2 h3 h4; simp [parse_temporal_intent, h1, h2, h3, h4]

/-- Witness for `temporal_intent_resolution`: an explicit start value 500
wins over the phrase "last week" in the query; with no explicit filter,
"yesterday" yields `now − 24` hours at `now = 1000`. -/
theorem temporal_intent_resolution_witness :
    computeStartDate (some [("start", some 500)]) "what changed last week" 1000 = some 500
    ∧ parse_temporal_intent "show me about yesterday" 1000 = some (1000 - 24) := by
  constructor
  · exact (temporal_intent_resolution "what changed last week" 1000
      [("start", some 500)] 500).1 (by decide)
  · exact (temporal_intent_resolution "show me about yesterday" 1000 [] 0).2.2.2.2.1
      (by decide) (by decide)

/-! ### Worker lemmas -/

theorem map_ite_id (c : α → Prop) [DecidablePred c] (f : α → α) (l : List α)
    (h : ∀ a ∈ l, ¬ c a) : (l.map fun a => if c a then f a else a) = l := by
  induction l with
  | nil => rfl
  | cons a t ih =>
    simp only [List.map_cons, if_neg (h a (List.mem_cons_self a t))]
    rw [ih fun b hb => h b (List.mem_cons_of_mem a hb)]

theorem filter_decide_nil (c : α → Prop) [DecidablePred c] (l : List α)
    (h : ∀ a ∈ l, ¬ c a) : (l.filter fun a => decide (c a)) = [] := by
  induction l with
  | nil => rfl
  | cons a t ih =>
    simp only [List.filter_cons, decide_eq_true_eq, if_neg (h a (List.mem_cons_self a t))]
    exact ih fun b hb => h b (List.mem_cons_of_mem a hb)

theorem length_le_one_of_forall_eq (l : List β) (hnd : l.Nodup) (b : β)
    (h : ∀ x ∈ l, x = b) : l.length ≤ 1 := by
  match l with
  | [] => simp
  | [a] => simp
  | a :: a' :: t =>
    have ha : a = b := h a (List.mem_cons_self _ _)
    have ha' : a' = b := h a' (List.mem_cons_of_mem _ (List.mem_cons_self _ _))
    have : a ≠ a' := by
      intro he
      exact (List.nodup_cons.mp hnd).1 (he ▸ List.mem_cons_self a' t)
    exact absurd (ha.trans ha'.symm) this

/-- When no stored job is pending under `jid`, the claim write matches
nothing: `rowcount = 0` and the table is unchanged. -/
theorem claim_noop (db : DB) (jid : Nat)
    (h : ∀ j ∈ db.jobs, ¬ (j.job_id = jid ∧ j.status = IngestionStatus.pending)) :
    claimRowcount db jid = 0 ∧ claimJobs db jid = db := by
  constructor
  · rw [claimRowcount, filter_decide_nil _ _ h]
    rfl
  · rw [claimJobs, map_ite_id _ _ _ h]

/-- A lookup by `job_id` over a status-only update of the job table finds
the updated image of the original row. -/
theorem findJob_update (jobs : List JobRow) (jid : Nat) (c : JobRow → Prop)
    [DecidablePred c] (f : JobRow → JobRow) (hf : ∀ j, (f j).job_id = j.job_id) :
    ((jobs.map fun j => if c j then f j else j).find? fun j => decide (j.job_id = jid)) =
      ((jobs.find? fun j => decide (j.job_id = jid)).map fun j =>
        if c j then f j else j) := by
  rw [List.find?_map]
  have hpred : ((fun j : JobRow => decide (j.job_id = jid)) ∘
      fun j => if c j then f j else j) = fun j : JobRow => decide (j.job_id = jid) := by
    funext j
    by_cases hc : c j <;> simp [Function.comp, hc, hf j]
  rw [hpred]

/-- For a stored pending job (unique ids), the claim write affects exactly
one record. -/
theorem claim_pending_rowcount (db : DB) (jid : Nat) (j : JobRow)
    (hnd : (db.jobs.map (·.job_id)).Nodup)
    (hfind : findJob db jid = some j) (hpend : j.status = IngestionStatus.pending) :
    claimRowcount db jid = 1 := by
  have hmem : j ∈ db.jobs := List.mem_of_find?_eq_some hfind
  have hid : j.job_id = jid := by simpa using List.find?_some hfind
  have hjf : j ∈ db.jobs.filter
      (fun x => decide (x.job_id = jid ∧ x.status = IngestionStatus.pending)) :=
    List.mem_filter.mpr ⟨hmem, by simp [hid, hpend]⟩
  have hall : ∀ x ∈ db.jobs.filter
      (fun x => decide (x.job_id = jid ∧ x.status = IngestionStatus.pending)), x = j := by
    intro x hx
    obtain ⟨hxm, hxp⟩ := List.mem_filter.mp hx
    simp only [decide_eq_true_eq] at hxp
    exact List.inj_on_of_nodup_map hnd hxm hmem (by rw [hxp.1, hid])
  have hsub := List.filter_sublist
    (p := fun x : JobRow => decide (x.job_id = jid ∧ x.status = IngestionStatus.pending)) db.jobs
  have hfnd : (db.jobs.filter
      (fun x => decide (x.job_id = jid ∧ x.status = IngestionStatus.pending))).Nodup :=
    List.Nodup.of_map _ (hnd.sublist (hsub.map (·.job_id)))
  have hle := length_le_one_of_forall_eq _ hfnd j hall
  have hpos := List.length_pos_of_mem hjf
  rw [claimRowcount]
  omega

/-- The claim write leaves the found pending row claimed (`processing`),
and `process_job` then runs the pipeline on that committed state; its
result is exactly the pipeline result, or the `except`-branch handling of
the pipeline's error. -/
theorem process_job_pending_eq (env : WorkerEnv) (fresh : Nat → Nat) (db : DB)
    (jid : Nat) (j : JobRow)
    (hnd : (db.jobs.map (·.job_id)).Nodup)
    (hfind : findJob db jid = some j) (hpend : j.status = IngestionStatus.pending) :
    findJob (claimJobs db jid) jid = some { j with status := IngestionStatus.processing }
    ∧ process_job env fresh db jid =
        (match runPipeline env fresh (claimJobs db jid)
            { j with status := IngestionStatus.processing } with
         | .ok db' => (db', none)
         | .error msg => handleFailure env (claimJobs db jid) jid msg) := by
  have hid : j.job_id = jid := by simpa using List.find?_some hfind
  have hupd := findJob_update db.jobs jid
    (fun x => x.job_id = jid ∧ x.status = IngestionStatus.pending)
    (fun x => { x with status := IngestionStatus.processing }) (fun _ => rfl)
  have hfc : findJob (claimJobs db jid) jid =
      some { j with status := IngestionStatus.processing } := by
    show ((db.jobs.map fun x =>
      if x.job_id = jid ∧ x.status = IngestionStatus.pending then
        { x with status := IngestionStatus.processing } else x).find? fun x =>
          decide (x.job_id = jid)) = _
    rw [hupd]
    rw [show (db.jobs.find? fun x => decide (x.job_id = jid)) = some j from hfind]
    simp [hid, hpend]
  refine ⟨hfc, ?_⟩
  have hrc : claimRowcount db jid = 1 := claim_pending_rowcount db jid j hnd hfind hpend
  rw [process_job, hrc]
  rw [if_neg (by omega : ¬ (1 : Nat) = 0)]
  rw [hfc]

/-- A found job row survives the failure-status write with status `failed`
and the message recorded. -/
theorem findJob_markFailed_of_found (dbX : DB) (jid : Nat) (jx : JobRow) (msg : String)
    (hfind : findJob dbX jid = some jx) :
    findJob (markFailed dbX jid msg) jid =
      some { jx with status := IngestionStatus.failed, error_message := some msg } := by
  have hid : jx.job_id = jid := by simpa using List.find?_some hfind
  have hupd := findJob_update dbX.jobs jid (fun x => x.job_id = jid)
    (fun x => { x with status := IngestionStatus.failed, error_message := some msg })
    (fun _ => rfl)
  show ((dbX.jobs.map fun x =>
    if x.job_id = jid then
      { x with status := IngestionStatus.failed, error_message := some msg }
    else x).find? fun x => decide (x.job_id = jid)) = _
  rw [hupd]
  rw [show (dbX.jobs.find? fun x => decide (x.job_id = jid)) = some jx from hfind]
  simp [hid]

/-- C10: an explicit `date_range` containing a `"start"` key whose value
fails to parse produces no error and no start-date filter at all, and
skips the implicit recency inference (for every query text, recency
phrases included), because inference runs only when no `"start"` key is
present. -/
theorem unparseable_start_drops_filter (q : String) (now : Int)
    (rest : List (String × Option Int)) :
    computeStartDate (some (("start", none) :: rest)) q now = none := by
  simp [computeStartDate, List.lookup]

/-- Witness for `hybrid_search_rrf`: legs `[10, 20, 30]` (semantic) and
`[30, 40]` (keyword); chunk 30 sits at rank 2 semantic and rank 0 keyword,
so its fused score is `1/63 + 1/61`. -/
theorem hybrid_search_rrf_witness :
    (∀ p ∈ hybrid_search [10, 20, 30] [30, 40] 5,
      p.2 = (if p.1 ∈ [10, 20, 30] then rrf 60 ([10, 20, 30].indexOf p.1) else 0)
          + (if p.1 ∈ [30, 40] then rrf 60 ([30, 40].indexOf p.1) else 0))
    ∧ (hybrid_search [10, 20, 30] [30, 40] 5).Sorted scoreDesc
    ∧ (hybrid_search [10, 20, 30] [30, 40] 5).length ≤ 5 :=
  hybrid_search_rrf [10, 20, 30] [30, 40] 5 (by decide) (by decide)

/-- C4: the claim is a conditional `pending → processing` transition.  Zero
affected records is not an error: a missing job fails with a not-found
error (state unchanged), an existing non-pending job is a no-op success.
One affected record means the claim is committed (visible as `processing`)
before any pipeline work, which then runs on that committed state; hence
re-running for a completed or failed job is a safe no-op. -/
theorem job_claim_semantics (env : WorkerEnv) (fresh : Nat → Nat) (db : DB) (jid : Nat)
    (hnd : (db.jobs.map (·.job_id)).Nodup) :
    (findJob db jid = none → process_job env fresh db jid = (db, some "Job not found"))
    ∧ (∀ j, findJob db jid = some j → j.status ≠ IngestionStatus.pending →
        process_job env fresh db jid = (db, none))
    ∧ (∀ j, findJob db jid = some j → j.status = IngestionStatus.pending →
        claimRowcount db jid = 1
        ∧ findJob (claimJobs db jid) jid = some { j with status := IngestionStatus.processing }
        ∧ process_job env fresh db jid =
            (match runPipeline env fresh (claimJobs db jid)
                { j with status := IngestionStatus.processing } with
             | .ok db2 => (db2, none)
             | .error msg => handleFailure env (claimJobs db jid) jid msg)) := by
  refine ⟨?_, ?_, ?_⟩
  · intro hfind
    have hforall : ∀ x ∈ db.jobs, ¬ (x.job_id = jid ∧ x.status = IngestionStatus.pending) := by
      intro x hx hc
      have hnp := List.find?_eq_none.mp hfind x hx
      simp only [decide_eq_true_eq] at hnp
      exact hnp hc.1
    obtain ⟨hrc, _⟩ := claim_noop db jid hforall
    have hmark : markFailed db jid "Job not found" = db := by
      rw [markFailed, map_ite_id]
      intro a ha hc
      have hnp := List.find?_eq_none.mp hfind a ha
      simp only [decide_eq_true_eq] at hnp
      exact hnp hc
    rw [process_job, hrc, if_pos rfl, hfind]
    simp [handleFailure, hmark]
  · intro j hfind hstat
    have hmem : j ∈ db.jobs := List.mem_of_find?_eq_some hfind
    have hid : j.job_id = jid := by simpa using List.find?_some hfind
    have hforall : ∀ x ∈ db.jobs, ¬ (x.job_id = jid ∧ x.status = IngestionStatus.pending) := by
      intro x hx hc
      have hxj : x = j := List.inj_on_of_nodup_map hnd hx hmem (by rw [hc.1, hid])
      exact hstat (hxj ▸ hc.2)
    obtain ⟨hrc, _⟩ := claim_noop db jid hforall
    rw [process_job, hrc, if_pos rfl, hfind]
  · intro j hfind hpend
    obtain ⟨hfc, heq⟩ := process_job_pending_eq env fresh db jid j hnd hfind hpend
    exact ⟨claim_pending_rowcount db jid j hnd hfind hpend, hfc, heq⟩

/-- Witness for `job_claim_semantics`: re-running `process_job` for an
already completed job is a no-op success. -/
theorem job_claim_semantics_witness :
    process_job ⟨.ok [], .ok [], fun _ => .ok [], 128, false⟩ (fun i => 100 + i)
      ⟨[⟨1, 7, 2, IngestionStatus.completed, none⟩], [], []⟩ 1 =
      (⟨[⟨1, 7, 2, IngestionStatus.completed, none⟩], [], []⟩, none) :=
  (job_claim_semantics ⟨.ok [], .ok [], fun _ => .ok [], 128, false⟩ (fun i => 100 + i)
      ⟨[⟨1, 7, 2, IngestionStatus.completed, none⟩], [], []⟩ 1 (by decide)).2.1
    ⟨1, 7, 2, IngestionStatus.completed, none⟩ (by decide) (by decide)

/-- C5: any pipeline failure after a successful claim yields: the original
error propagated (never masked, even when the failure-status write itself
fails), the uncommitted writes of the attempt discarded (chunks are as
before the run), and — when the failure-status write succeeds — the job
stored as `failed` with the exception message in `error_message`. -/
theorem failure_handling_after_claim (env : WorkerEnv) (fresh : Nat → Nat) (db : DB)
    (jid : Nat) (j : JobRow) (msg : String)
    (hnd : (db.jobs.map (·.job_id)).Nodup)
    (hfind : findJob db jid = some j) (hpend : j.status = IngestionStatus.pending)
    (hfail : runPipeline env fresh (claimJobs db jid)
      { j with status := IngestionStatus.processing } = .error msg) :
    process_job env fresh db jid =
      ((if env.statusWriteFails then claimJobs db jid
        else markFailed (claimJobs db jid) jid msg), some msg)
    ∧ (process_job env fresh db jid).1.chunks = db.chunks
    ∧ (env.statusWriteFails = false →
        ∃ j2, findJob (process_job env fresh db jid).1 jid = some j2
          ∧ j2.status = IngestionStatus.failed ∧ j2.error_message = some msg) := by
  obtain ⟨hfc, heq⟩ := process_job_pending_eq env fresh db jid j hnd hfind hpend
  rw [hfail] at heq
  simp only [handleFailure] at heq
  refine ⟨heq, ?_, ?_⟩
  · rw [heq]
    cases env.statusWriteFails <;> rfl
  · intro hsw
    rw [heq]
    simp only [hsw, Bool.false_eq_true, if_false]
    exact ⟨_, findJob_markFailed_of_found (claimJobs db jid) jid _ msg hfc, rfl, rfl⟩

/-- Witness for `failure_handling_after_claim`: a pending job whose
document is absent; processing fails with "Document not found", the job is
stored `failed` with that message, and no chunk is written. -/
theorem failure_handling_after_claim_witness :
    process_job ⟨.ok [], .ok [], fun _ => .ok [], 128, false⟩ (fun i => 100 + i)
      ⟨[⟨1, 7, 2, IngestionStatus.pending, none⟩], [], []⟩ 1 =
      ((if (false : Bool) then
          claimJobs ⟨[⟨1, 7, 2, IngestionStatus.pending, none⟩], [], []⟩ 1
        else markFailed (claimJobs ⟨[⟨1, 7, 2, IngestionStatus.pending, none⟩], [], []⟩ 1)
          1 "Document not found"), some "Document not found")
    ∧ (process_job ⟨.ok [], .ok [], fun _ => .ok [], 128, false⟩ (fun i => 100 + i)
        ⟨[⟨1, 7, 2, IngestionStatus.pending, none⟩], [], []⟩ 1).1.chunks =
        (⟨[⟨1, 7, 2, IngestionStatus.pending, none⟩], [], []⟩ : DB).chunks
    ∧ ((false : Bool) = false →
        ∃ j2, findJob (process_job ⟨.ok [], .ok [], fun _ => .ok [], 128, false⟩
            (fun i => 100 + i) ⟨[⟨1, 7, 2, IngestionStatus.pending, none⟩], [], []⟩ 1).1 1 =
            some j2
          ∧ j2.status = IngestionStatus.failed
          ∧ j2.error_message = some "Document not found") :=
  failure_handling_after_claim ⟨.ok [], .ok [], fun _ => .ok [], 128, false⟩
    (fun i => 100 + i) ⟨[⟨1, 7, 2, IngestionStatus.pending, none⟩], [], []⟩ 1
    ⟨1, 7, 2, IngestionStatus.pending, none⟩ "Document not found"
    (by decide) (by decide) (by decide) rfl

/-- C6: an unsupported source kind yields zero chunks from the dispatch;
an empty chunk list after extraction makes processing fail permanently
(the job ends `failed` with the error recorded), and a run that succeeds
necessarily produced a non-empty chunk list — a job is never completed
with zero chunks. -/
theorem empty_extraction_fails (env : WorkerEnv) (fresh : Nat → Nat) (db : DB)
    (jid : Nat) (j : JobRow) (doc : DocRow)
    (hnd : (db.jobs.map (·.job_id)).Nodup)
    (hfind : findJob db jid = some j) (hpend : j.status = IngestionStatus.pending)
    (hdoc : findDoc db j.document_id = some doc)
    (hsw : env.statusWriteFails = false) :
    ((doc.source_type = DocumentSourceType.web ∨
      doc.source_type = DocumentSourceType.image) → dispatchChunks env doc = .ok [])
    ∧ (dispatchChunks env doc = .ok [] →
        (process_job env fresh db jid).2 = some "No chunks produced from document"
        ∧ ∃ j2, findJob (process_job env fresh db jid).1 jid = some j2
            ∧ j2.status = IngestionStatus.failed
            ∧ j2.error_message = some "No chunks produced from document")
    ∧ ((process_job env fresh db jid).2 = none →
        ∃ cds, dispatchChunks env doc = .ok cds ∧ cds ≠ []) := by
  obtain ⟨hfc, heq⟩ := process_job_pending_eq env fresh db jid j hnd hfind hpend
  have hdoc2 : findDoc (claimJobs db jid)
      ({ j with status := IngestionStatus.processing } : JobRow).document_id = some doc := hdoc
  refine ⟨?_, ?_, ?_⟩
  · intro hkind
    rcases hkind with hk | hk <;> (rw [dispatchChunks, hk])
  · intro hdisp
    have hfail : runPipeline env fresh (claimJobs db jid)
        { j with status := IngestionStatus.processing } =
        .error "No chunks produced from document" := by
      simp [runPipeline, hdoc2, hdisp]
    rw [hfail] at heq
    simp only [handleFailure, hsw, Bool.false_eq_true, if_false] at heq
    rw [heq]
    exact ⟨rfl, _, findJob_markFailed_of_found (claimJobs db jid) jid _ _ hfc, rfl, rfl⟩
  · intro hnone
    rw [heq] at hnone
    cases hrp : runPipeline env fresh (claimJobs db jid)
        { j with status := IngestionStatus.processing } with
    | error m =>
      rw [hrp] at hnone
      simp [handleFailure] at hnone
    | ok db2 =>
      simp only [runPipeline, hdoc2] at hrp
      cases hd : dispatchChunks env doc with
      | error e =>
        rw [hd] at hrp
        exact absurd hrp (by simp)
      | ok cds =>
        rw [hd] at hrp
        refine ⟨cds, rfl, ?_⟩
        intro hnil
        subst hnil
        simp at hrp

/-- Witness for `empty_extraction_fails`: a pending job over a `web`
document; dispatch yields zero chunks, the run fails with the
empty-extraction error and the job is recorded `failed`. -/
theorem empty_extraction_fails_witness :
    ((DocRow.mk 2 DocumentSourceType.web "u").source_type = DocumentSourceType.web ∨
      (DocRow.mk 2 DocumentSourceType.web "u").source_type = DocumentSourceType.image)
    ∧ dispatchChunks ⟨.ok [], .ok [], fun _ => .ok [], 128, false⟩
        (DocRow.mk 2 DocumentSourceType.web "u") = .ok []
    ∧ (process_job ⟨.ok [], .ok [], fun _ => .ok [], 128, false⟩ (fun i => 100 + i)
        ⟨[⟨1, 7, 2, IngestionStatus.pending, none⟩], [⟨2, DocumentSourceType.web, "u"⟩], []⟩
        1).2 = some "No chunks produced from document"
    ∧ ∃ j2, findJob (process_job ⟨.ok [], .ok [], fun _ => .ok [], 128, false⟩
        (fun i => 100 + i)
        ⟨[⟨1, 7, 2, IngestionStatus.pending, none⟩], [⟨2, DocumentSourceType.web, "u"⟩], []⟩
        1).1 1 = some j2
        ∧ j2.status = IngestionStatus.failed
        ∧ j2.error_message = some "No chunks produced from document" := by
  have h := empty_extraction_fails ⟨.ok [], .ok [], fun _ => .ok [], 128, false⟩
    (fun i => 100 + i)
    ⟨[⟨1, 7, 2, IngestionStatus.pending, none⟩], [⟨2, DocumentSourceType.web, "u"⟩], []⟩
    1 ⟨1, 7, 2, IngestionStatus.pending, none⟩ ⟨2, DocumentSourceType.web, "u"⟩
    (by decide) (by decide) (by decide) (by decide) (by decide)
  have hkind : (DocRow.mk 2 DocumentSourceType.web "u").source_type = DocumentSourceType.web ∨
      (DocRow.mk 2 DocumentSourceType.web "u").source_type = DocumentSourceType.image :=
    Or.inl rfl
  have hdisp := h.1 hkind
  exact ⟨hkind, hdisp, (h.2.1 hdisp).1, (h.2.1 hdisp).2⟩

/-! ### Embedding batch lemmas -/

theorem batches_flatten (limit : Nat) (hl : 1 ≤ limit) :
    ∀ (n : Nat) (texts : List String), texts.length ≤ n →
      (batches limit texts).flatten = texts := by
  intro n
  induction n with
  | zero =>
    intro texts h
    have : texts = [] := List.length_eq_zero.mp (Nat.le_zero.mp h)
    subst this
    simp [batches]
  | succ n ih =>
    intro texts h
    match texts with
    | [] => simp [batches]
    | t :: ts =>
      have hlen : ts.length ≤ n := by
        simp only [List.length_cons] at h
        omega
      have hdrop : (ts.drop (limit - 1)).length ≤ n := by
        rw [List.length_drop]
        omega
      rw [batches, List.flatten_cons, ih (ts.drop (limit - 1)) hdrop]
      simp [List.take_append_drop]

theorem batches_bounded (limit : Nat) (hl : 1 ≤ limit) :
    ∀ (n : Nat) (texts : List String), texts.length ≤ n →
      ∀ b ∈ batches limit texts, b.length ≤ limit ∧ b ≠ [] := by
  intro n
  induction n with
  | zero =>
    intro texts h b hb
    have : texts = [] := List.length_eq_zero.mp (Nat.le_zero.mp h)
    subst this
    simp [batches] at hb
  | succ n ih =>
    intro texts h b hb
    match texts with
    | [] => simp [batches] at hb
    | t :: ts =>
      rw [batches] at hb
      rcases List.mem_cons.mp hb with hb | hb
      · subst hb
        constructor
        · simp only [List.length_cons, List.length_take]
          omega
        · simp
      · have hdrop : (ts.drop (limit - 1)).length ≤ n := by
          rw [List.length_drop]
          simp only [List.length_cons] at h
          omega
        exact ih (ts.drop (limit - 1)) hdrop b hb

theorem genAux_ok_length (provider : List String → Except String (List (List ℚ)))
    (limit : Nat) :
    ∀ (n : Nat) (texts : List String), texts.length ≤ n →
      ∀ res, generateEmbeddingsAux provider limit texts = .ok res →
        res.length = texts.length := by
  intro n
  induction n with
  | zero =>
    intro texts h res hres
    have : texts = [] := List.length_eq_zero.mp (Nat.le_zero.mp h)
    subst this
    rw [generateEmbeddingsAux] at hres
    cases hres
    rfl
  | succ n ih =>
    intro texts h res hres
    match texts with
    | [] =>
      rw [generateEmbeddingsAux] at hres
      cases hres
      rfl
    | t :: ts =>
      rw [generateEmbeddingsAux] at hres
      cases hp : provider (t :: ts.take (limit - 1)) with
      | error e =>
        simp only [hp] at hres
        cases hres
      | ok embs =>
        simp only [hp] at hres
        by_cases hm : embs.length ≠ (t :: ts.take (limit - 1)).length
        · rw [if_pos hm] at hres
          cases hres
        · rw [if_neg hm] at hres
          push_neg at hm
          cases hr : generateEmbeddingsAux provider limit (ts.drop (limit - 1)) with
          | error e =>
            simp only [hr] at hres
            cases hres
          | ok rest =>
            simp only [hr] at hres
            cases hres
            have hdrop : (ts.drop (limit - 1)).length ≤ n := by
              rw [List.length_drop]
              simp only [List.length_cons] at h
              omega
            have hrest := ih (ts.drop (limit - 1)) hdrop rest hr
            have hsplit : (ts.take (limit - 1)).length + (ts.drop (limit - 1)).length =
                ts.length := by
              rw [← List.length_append, List.take_append_drop]
            rw [List.length_append, hm, hrest]
            simp only [List.length_cons]
            omega

theorem generate_embeddings_ok_length
    (provider : List String → Except String (List (List ℚ))) (limit : Nat)
    (texts : List String) (res : List (List ℚ))
    (h : generate_embeddings provider limit texts = .ok res) :
    res.length = texts.length := by
  rw [generate_embeddings] at h
  match texts with
  | [] =>
    simp only [List.isEmpty_nil, if_true] at h
    cases h
    rfl
  | t :: ts =>
    simp only [List.isEmpty_cons, Bool.false_eq_true, if_false] at h
    exact genAux_ok_length provider limit (t :: ts).length (t :: ts) le_rfl res h

theorem generate_embeddings_first_mismatch
    (provider : List String → Except String (List (List ℚ))) (limit : Nat)
    (hl : 1 ≤ limit) (t : String) (ts : List String) (embs : List (List ℚ))
    (hp : provider ((t :: ts).take limit) = .ok embs)
    (hm : embs.length ≠ ((t :: ts).take limit).length) :
    generate_embeddings provider limit (t :: ts) = .error "Embedding count mismatch" := by
  have htake : (t :: ts).take limit = t :: ts.take (limit - 1) := by
    match limit, hl with
    | k + 1, _ => rfl
  rw [htake] at hp hm
  rw [generate_embeddings]
  simp only [List.isEmpty_cons, Bool.false_eq_true, if_false]
  rw [generateEmbeddingsAux]
  simp only [hp]
  rw [if_pos hm]

/-- A pipeline run whose embedding stage fails raises that failure. -/
theorem pipeline_error_of_embed_error (env : WorkerEnv) (fresh : Nat → Nat) (db0 : DB)
    (job : JobRow) (doc : DocRow) (c0 : WChunkMeta) (ctl : List WChunkMeta) (m : String)
    (hdoc : findDoc db0 job.document_id = some doc)
    (hd : dispatchChunks env doc = .ok (c0 :: ctl))
    (hemb : generate_embeddings env.provider env.batchLimit
      ((c0 :: ctl).map (·.text)) = .error m) :
    runPipeline env fresh db0 job = .error m := by
  simp only [List.map_cons] at hemb
  simp [runPipeline, hdoc, hd, hemb]

/-- C7: the embedding validator slices the inputs into consecutive batches
of at most the configured limit covering the whole input in order; a
successful run returns exactly one vector per input (never truncated or
padded); a first-batch count mismatch is a fatal error; and when the
embedding stage of a claimed job fails this way, no chunk is persisted and
the error propagates. -/
theorem embedding_batch_validation
    (provider : List String → Except String (List (List ℚ)))
    (limit : Nat) (texts : List String) (hl : 1 ≤ limit) :
    (batches limit texts).flatten = texts
    ∧ (∀ b ∈ batches limit texts, b.length ≤ limit ∧ b ≠ [])
    ∧ (∀ res, generate_embeddings provider limit texts = .ok res →
        res.length = texts.length)
    ∧ (∀ t ts embs, texts = t :: ts →
        provider (texts.take limit) = .ok embs →
        embs.length ≠ (texts.take limit).length →
        generate_embeddings provider limit texts = .error "Embedding count mismatch")
    ∧ (∀ (env : WorkerEnv) (fresh : Nat → Nat) (db : DB) (jid : Nat) (j : JobRow)
        (doc : DocRow) (c0 : WChunkMeta) (ctl : List WChunkMeta) (m : String),
        (db.jobs.map (·.job_id)).Nodup →
        findJob db jid = some j → j.status = IngestionStatus.pending →
        findDoc db j.document_id = some doc →
        dispatchChunks env doc = .ok (c0 :: ctl) →
        generate_embeddings env.provider env.batchLimit
          ((c0 :: ctl).map (·.text)) = .error m →
        (process_job env fresh db jid).1.chunks = db.chunks
        ∧ (process_job env fresh db jid).2 = some m) := by
  refine ⟨batches_flatten limit hl texts.length texts le_rfl,
    batches_bounded limit hl texts.length texts le_rfl, ?_, ?_, ?_⟩
  · intro res h
    exact generate_embeddings_ok_length provider limit texts res h
  · intro t ts embs hts hp hm
    subst hts
    exact generate_embeddings_first_mismatch provider limit hl t ts embs hp hm
  · intro env fresh db jid j doc c0 ctl m hnd hfind hpend hdoc hd hemb
    obtain ⟨hfc, heq⟩ := process_job_pending_eq env fresh db jid j hnd hfind hpend
    have hdoc2 : findDoc (claimJobs db jid)
        ({ j with status := IngestionStatus.processing } : JobRow).document_id =
        some doc := hdoc
    have hfail := pipeline_error_of_embed_error env fresh (claimJobs db jid)
      { j with status := IngestionStatus.processing } doc c0 ctl m hdoc2 hd hemb
    rw [hfail] at heq
    simp only [handleFailure] at heq
    rw [heq]
    constructor
    · cases env.statusWriteFails <;> rfl
    · rfl

/-- Witness for `embedding_batch_validation`: a batch call for 10 texts
returning 9 vectors raises the mismatch error. -/
theorem embedding_batch_validation_witness :
    generate_embeddings (fun _ => .ok (List.replicate 9 [(1 : ℚ)])) 128
      (List.replicate 10 "t") = .error "Embedding count mismatch" :=
  (embedding_batch_validation (fun _ => .ok (List.replicate 9 [(1 : ℚ)])) 128
      (List.replicate 10 "t") (by decide)).2.2.2.1 "t" (List.replicate 9 "t")
    (List.replicate 9 [(1 : ℚ)]) (by rfl) (by rfl) (by decide)

/-! ### Chunk upsert lemmas -/

theorem keyMatch_overwriteFields (d i : Nat) (m : WChunkMeta) (e : List ℚ)
    (ch : ChunkRow) : keyMatch d i (overwriteFields m e ch) = keyMatch d i ch := rfl

theorem overwriteFirst_length (d i : Nat) (f : ChunkRow → ChunkRow) :
    ∀ l : List ChunkRow, (overwriteFirst d i f l).length = l.length := by
  intro l
  induction l with
  | nil => rfl
  | cons ch rest ih =>
    rw [overwriteFirst]
    split
    · simp
    · simp [ih]

theorem filter_overwriteFirst_length (d i : Nat) (f : ChunkRow → ChunkRow)
    (q : ChunkRow → Bool) (hq : ∀ c, q (f c) = q c) :
    ∀ l : List ChunkRow,
      ((overwriteFirst d i f l).filter q).length = (l.filter q).length := by
  intro l
  induction l with
  | nil => rfl
  | cons ch rest ih =>
    rw [overwriteFirst]
    split
    · cases hqc : q ch with
      | true =>
        rw [List.filter_cons_of_pos (by rw [hq]; exact hqc),
          List.filter_cons_of_pos hqc]
        simp
      | false =>
        rw [List.filter_cons_of_neg (by rw [hq]; simp [hqc]),
          List.filter_cons_of_neg (by simp [hqc])]
    · cases hqc : q ch with
      | true =>
        rw [List.filter_cons_of_pos hqc, List.filter_cons_of_pos hqc]
        simp [ih]
      | false =>
        rw [List.filter_cons_of_neg (by simp [hqc]), List.filter_cons_of_neg (by simp [hqc])]
        exact ih

theorem filter_overwriteFirst_cons (d i : Nat) (f : ChunkRow → ChunkRow)
    (hf : ∀ c, keyMatch d i (f c) = keyMatch d i c) :
    ∀ (l : List ChunkRow) (c : ChunkRow) (tl : List ChunkRow),
      l.filter (keyMatch d i) = c :: tl →
      (overwriteFirst d i f l).filter (keyMatch d i) = f c :: tl := by
  intro l
  induction l with
  | nil => intro c tl h; simp at h
  | cons ch rest ih =>
    intro c tl h
    cases hk : keyMatch d i ch with
    | true =>
      rw [List.filter_cons_of_pos hk] at h
      cases h
      rw [overwriteFirst, if_pos hk]
      rw [List.filter_cons_of_pos (by rw [hf]; exact hk)]
    | false =>
      rw [List.filter_cons_of_neg (by simp [hk])] at h
      rw [overwriteFirst, if_neg (by simp [hk])]
      rw [List.filter_cons_of_neg (by simp [hk])]
      exact ih c tl h

theorem find?_eq_head_filter (p : α → Bool) :
    ∀ l : List α, l.find? p = (l.filter p).head? := by
  intro l
  induction l with
  | nil => rfl
  | cons a t ih =>
    cases hp : p a with
    | true => rw [List.find?_cons_of_pos _ hp, List.filter_cons_of_pos hp]; rfl
    | false =>
      rw [List.find?_cons_of_neg _ (by simp [hp]), List.filter_cons_of_neg (by simp [hp])]
      exact ih

theorem upsertChunk_found (chunks : List ChunkRow) (fid uid d : Nat)
    (m : WChunkMeta) (e : List ℚ) (c : ChunkRow)
    (hf : findChunk chunks d m.chunk_index = some c) :
    upsertChunk chunks fid uid d m e =
      overwriteFirst d m.chunk_index (overwriteFields m e) chunks := by
  rw [upsertChunk, hf]

theorem upsertChunk_missing (chunks : List ChunkRow) (fid uid d : Nat)
    (m : WChunkMeta) (e : List ℚ)
    (hf : findChunk chunks d m.chunk_index = none) :
    upsertChunk chunks fid uid d m e =
      chunks ++ [⟨fid, uid, d, m.chunk_index, m.text, e, m.start_time, m.end_time,
        m.page_number, m.metadata⟩] := by
  rw [upsertChunk, hf]

/-- After one upsert, exactly one row carries the written key (given the
at-most-one invariant beforehand). -/
theorem upsert_count_self (chunks : List ChunkRow) (fid uid d : Nat)
    (m : WChunkMeta) (e : List ℚ)
    (hinv : (chunks.filter (keyMatch d m.chunk_index)).length ≤ 1) :
    ((upsertChunk chunks fid uid d m e).filter (keyMatch d m.chunk_index)).length = 1 := by
  cases hf : findChunk chunks d m.chunk_index with
  | none =>
    have hnil : chunks.filter (keyMatch d m.chunk_index) = [] := by
      have h0 := find?_eq_head_filter (keyMatch d m.chunk_index) chunks
      rw [findChunk] at hf
      rw [hf] at h0
      exact List.head?_eq_none_iff.mp h0.symm
    rw [upsertChunk_missing chunks fid uid d m e hf, List.filter_append, hnil]
    simp [keyMatch]
  | some c =>
    rw [upsertChunk_found chunks fid uid d m e c hf]
    rw [filter_overwriteFirst_length d m.chunk_index _ _
      (fun ch => keyMatch_overwriteFields d m.chunk_index m e ch)]
    have h0 := find?_eq_head_filter (keyMatch d m.chunk_index) chunks
    rw [findChunk] at hf
    rw [hf] at h0
    cases hfil : chunks.filter (keyMatch d m.chunk_index) with
    | nil => rw [hfil] at h0; cases h0
    | cons x xs =>
      rw [hfil] at hinv
      simp only [List.length_cons] at hinv ⊢
      omega

/-- An upsert leaves the row count of every other key unchanged. -/
theorem upsert_count_other (chunks : List ChunkRow) (fid uid d : Nat)
    (m : WChunkMeta) (e : List ℚ) (d0 i0 : Nat)
    (hne : ¬(d0 = d ∧ i0 = m.chunk_index)) :
    ((upsertChunk chunks fid uid d m e).filter (keyMatch d0 i0)).length =
      (chunks.filter (keyMatch d0 i0)).length := by
  cases hf : findChunk chunks d m.chunk_index with
  | none =>
    rw [upsertChunk_missing chunks fid uid d m e hf, List.filter_append]
    have : keyMatch d0 i0 (⟨fid, uid, d, m.chunk_index, m.text, e,
        m.start_time, m.end_time, m.page_number, m.metadata⟩ : ChunkRow) = false := by
      simp only [keyMatch, decide_eq_false_iff_not]
      intro hc
      exact hne ⟨hc.1.symm, hc.2.symm⟩
    rw [List.filter_cons_of_neg (by simp [this])]
    simp
  | some c =>
    rw [upsertChunk_found chunks fid uid d m e c hf]
    exact filter_overwriteFirst_length d m.chunk_index (overwriteFields m e)
      (keyMatch d0 i0) (fun _ => rfl) chunks

/-- One upsert preserves the at-most-one-row-per-key invariant. -/
theorem upsert_inv (chunks : List ChunkRow) (fid uid d : Nat)
    (m : WChunkMeta) (e : List ℚ)
    (hinv : ∀ d0 i0, (chunks.filter (keyMatch d0 i0)).length ≤ 1) :
    ∀ d0 i0, ((upsertChunk chunks fid uid d m e).filter (keyMatch d0 i0)).length ≤ 1 := by
  intro d0 i0
  by_cases hk : d0 = d ∧ i0 = m.chunk_index
  · obtain ⟨h1, h2⟩ := hk
    subst h1; subst h2
    rw [upsert_count_self chunks fid uid d0 m e (hinv d0 m.chunk_index)]
  · rw [upsert_count_other chunks fid uid d m e d0 i0 hk]
    exact hinv d0 i0

/-- The whole storage loop preserves the invariant. -/
theorem storeChunks_inv (fresh : Nat → Nat) (uid d : Nat) :
    ∀ (pairs : List (WChunkMeta × List ℚ)) (chunks : List ChunkRow) (i : Nat),
      (∀ d0 i0, (chunks.filter (keyMatch d0 i0)).length ≤ 1) →
      ∀ d0 i0, ((storeChunks fresh uid d chunks i pairs).filter (keyMatch d0 i0)).length ≤ 1 := by
  intro pairs
  induction pairs with
  | nil => intro chunks i h d0 i0; exact h d0 i0
  | cons p rest ih =>
    intro chunks i h d0 i0
    rw [storeChunks]
    exact ih (upsertChunk chunks (fresh i) uid d p.1 p.2) (i + 1)
      (upsert_inv chunks (fresh i) uid d p.1 p.2 h) d0 i0

/-- C8 (counterexample): the claim that re-persisting a key overwrites all
mutable fields including the provenance payload is false: the second write
replaces text and embedding but the stored row keeps the first write's
`source_ref` `(1, 2)`, not the latest `(3, 4)`. -/
theorem chunk_upsert_claim_false :
    upsertChunk (upsertChunk [] 100 7 5 ⟨"t1", none, none, some 1, 0, some (1, 2)⟩
        [(1 : ℚ)]) 101 7 5 ⟨"t2", none, none, some 1, 0, some (3, 4)⟩ [(2 : ℚ)] =
      [⟨100, 7, 5, 0, "t2", [(2 : ℚ)], none, none, some 1, some (1, 2)⟩]
    ∧ (some ((1 : Nat), (2 : Nat)) ≠ some ((3 : Nat), (4 : Nat))) := by
  constructor
  · rfl
  · decide

/-- C8 (amended): chunk persistence is idempotent on `(document_id,
chunk_index)`: the at-most-one-row-per-key invariant is preserved by each
upsert and by the whole storage loop, and a second write to an existing
key overwrites the row's text, embedding, offsets and page number in place
(no duplicate row; the list does not grow), leaving exactly one row whose
text/embedding/offsets/page reflect the latest write — while the
provenance payload keeps its originally inserted value. -/
theorem chunk_upsert_idempotent (chunks : List ChunkRow) (fid1 fid2 uid d : Nat)
    (m m2 : WChunkMeta) (e e2 : List ℚ)
    (hinv : ∀ d0 i0, (chunks.filter (keyMatch d0 i0)).length ≤ 1)
    (hidx : m2.chunk_index = m.chunk_index) :
    (∀ d0 i0, ((upsertChunk chunks fid1 uid d m e).filter (keyMatch d0 i0)).length ≤ 1)
    ∧ (∀ (fresh : Nat → Nat) (i : Nat) (pairs : List (WChunkMeta × List ℚ)) (d0 i0 : Nat),
        ((storeChunks fresh uid d chunks i pairs).filter (keyMatch d0 i0)).length ≤ 1)
    ∧ (upsertChunk (upsertChunk chunks fid1 uid d m e) fid2 uid d m2 e2).length =
        (upsertChunk chunks fid1 uid d m e).length
    ∧ ∃ ch, (upsertChunk (upsertChunk chunks fid1 uid d m e) fid2 uid d m2 e2).filter
          (keyMatch d m.chunk_index) = [ch]
        ∧ ch.text = m2.text ∧ ch.embedding = e2 ∧ ch.start_offset = m2.start_time
        ∧ ch.end_offset = m2.end_time ∧ ch.page_number = m2.page_number := by
  have h1 : ((upsertChunk chunks fid1 uid d m e).filter
      (keyMatch d m.chunk_index)).length = 1 :=
    upsert_count_self chunks fid1 uid d m e (hinv d m.chunk_index)
  obtain ⟨c, hc⟩ := List.length_eq_one.mp h1
  have hfind2 : findChunk (upsertChunk chunks fid1 uid d m e) d m2.chunk_index = some c := by
    rw [hidx, findChunk, find?_eq_head_filter, hc]
    rfl
  have hup2 : upsertChunk (upsertChunk chunks fid1 uid d m e) fid2 uid d m2 e2 =
      overwriteFirst d m2.chunk_index (overwriteFields m2 e2)
        (upsertChunk chunks fid1 uid d m e) :=
    upsertChunk_found (upsertChunk chunks fid1 uid d m e) fid2 uid d m2 e2 c hfind2
  refine ⟨upsert_inv chunks fid1 uid d m e hinv, ?_, ?_, ?_⟩
  · intro fresh i pairs d0 i0
    exact storeChunks_inv fresh uid d pairs chunks i hinv d0 i0
  · rw [hup2, overwriteFirst_length]
  · rw [hidx] at hup2
    rw [hup2]
    exact ⟨overwriteFields m2 e2 c,
      filter_overwriteFirst_cons d m.chunk_index (overwriteFields m2 e2)
        (fun ch => keyMatch_overwriteFields d m.chunk_index m2 e2 ch)
        (upsertChunk chunks fid1 uid d m e) c [] hc,
      rfl, rfl, rfl, rfl, rfl⟩

/-- Witness for `chunk_upsert_idempotent`: two writes to key `(5, 0)` on an
empty store leave exactly one row with the second write's text, embedding,
offsets and page. -/
theorem chunk_upsert_idempotent_witness :
    (∀ d0 i0, ((upsertChunk [] 100 7 5 ⟨"t1", none, none, some 1, 0, some (1, 2)⟩
        [(1 : ℚ)]).filter (keyMatch d0 i0)).length ≤ 1)
    ∧ (∀ (fresh : Nat → Nat) (i : Nat) (pairs : List (WChunkMeta × List ℚ)) (d0 i0 : Nat),
        ((storeChunks fresh 7 5 [] i pairs).filter (keyMatch d0 i0)).length ≤ 1)
    ∧ (upsertChunk (upsertChunk [] 100 7 5 ⟨"t1", none, none, some 1, 0, some (1, 2)⟩
        [(1 : ℚ)]) 101 7 5 ⟨"t2", none, none, some 2, 0, some (3, 4)⟩ [(2 : ℚ)]).length =
        (upsertChunk [] 100 7 5 ⟨"t1", none, none, some 1, 0, some (1, 2)⟩
          [(1 : ℚ)]).length
    ∧ ∃ ch, (upsertChunk (upsertChunk [] 100 7 5
          ⟨"t1", none, none, some 1, 0, some (1, 2)⟩ [(1 : ℚ)]) 101 7 5
          ⟨"t2", none, none, some 2, 0, some (3, 4)⟩ [(2 : ℚ)]).filter
          (keyMatch 5 (WChunkMeta.mk "t1" none none (some 1) 0 (some (1, 2))).chunk_index)
          = [ch]
        ∧ ch.text = "t2" ∧ ch.embedding = [(2 : ℚ)] ∧ ch.start_offset = none
        ∧ ch.end_offset = none ∧ ch.page_number = some 2 :=
  chunk_upsert_idempotent [] 100 101 7 5
    ⟨"t1", none, none, some 1, 0, some (1, 2)⟩
    ⟨"t2", none, none, some 2, 0, some (3, 4)⟩ [(1 : ℚ)] [(2 : ℚ)]
    (fun d0 i0 => by simp) rfl

end Vision
